import Mathlib

/-
Verification development for the taskflow-api admission / caching core.

Part 1 models the fixed-window rate limiter of
src/common/guards/rate-limit.guard.ts against standard Redis command
semantics (GET, TTL, INCR, EXPIRE, MULTI INCR+EXPIRE).

Part 2 models the cache service of src/common/services/cache.service.ts
over an abstract key-value cache manager (namespacing, key tracking,
bulk operations, error absorption).

Part 3 refines the clone mechanism (JSON.parse of JSON.stringify) of the
cache service with an explicit heap of JavaScript objects, to state and
prove the copy-isolation invariant.

Time is measured in whole seconds throughout (the guard converts
windowMs to whole seconds with Math.floor before talking to Redis, and
Redis TTL returns whole seconds).
-/

namespace TaskFlow

/-- A live Redis entry used by the rate limiter: the integer counter
(INCR stores integers) together with its absolute expiry instant in
seconds, none meaning the key has no TTL. -/
structure RedisEntry where
  count : Nat
  expiresAt : Option Nat
deriving DecidableEq, Repr

/-- The Redis keyspace relevant to the guard: a partial map from keys to
entries. Expired entries may linger physically; every read goes through
`live`, which treats them as absent, matching Redis lazy expiry. -/
def Store := String → Option RedisEntry

/-- The empty keyspace. -/
def Store.empty : Store := fun _ => none

/-- Redis visibility of a key at time `now`: an entry whose expiry
instant has been reached is gone. -/
def live (s : Store) (now : Nat) (k : String) : Option RedisEntry :=
  match s k with
  | none => none
  | some e =>
    match e.expiresAt with
    | none => some e
    | some t => if now < t then some e else none

/-- GET of a counter key: the stored integer, none when absent/expired
(the guard parses the reply with parseInt and defaults to 0 on nil). -/
def redisGet (s : Store) (now : Nat) (k : String) : Option Nat :=
  (live s now k).map (fun e => e.count)

/-- TTL in seconds: -2 when the key is absent, -1 when it has no expiry,
otherwise the remaining seconds. -/
def redisTtl (s : Store) (now : Nat) (k : String) : Int :=
  match live s now k with
  | none => -2
  | some e =>
    match e.expiresAt with
    | none => -1
    | some t => (t : Int) - (now : Int)

/-- INCR: increments an existing live counter keeping its TTL; on an
absent or expired key it creates a fresh entry at 1 with no TTL. -/
def redisIncr (s : Store) (now : Nat) (k : String) : Store :=
  fun k' =>
    if k' = k then
      match live s now k with
      | some e => some { count := e.count + 1, expiresAt := e.expiresAt }
      | none => some { count := 1, expiresAt := none }
    else s k'

/-- EXPIRE key seconds: on a live key it unconditionally installs the
new TTL (the guard passes no NX flag); on an absent key it is a no-op. -/
def redisExpire (s : Store) (now : Nat) (k : String) (secs : Nat) : Store :=
  fun k' =>
    if k' = k then
      match live s now k with
      | some e => some { count := e.count, expiresAt := some (now + secs) }
      | none => none
    else s k'

/-- The atomic transaction `multi().incr(key).expire(key, windowSeconds).exec()`
issued by the guard on every admitted request. -/
def multiIncrExpire (s : Store) (now : Nat) (k : String) (secs : Nat) : Store :=
  redisExpire (redisIncr s now k) now k secs

/-- The payload of the HttpException thrown on quota exhaustion
(statusCode, limit, current, remainingRequests, nextValidRequestTime;
the timestamp is in seconds, the code computes Date.now() + ttl*1000 in
milliseconds). -/
structure RejectionBody where
  statusCode : Nat
  limit : Nat
  current : Nat
  remainingRequests : Nat
  nextValidRequestTime : Int
deriving DecidableEq, Repr

/-- Outcome of the admission check as seen by the caller of the guard:
either the request proceeds or the typed 429 response propagates. -/
inductive Decision where
  | allowed
  | rejected (body : RejectionBody)
deriving DecidableEq, Repr

/-- Which of the three Redis round trips inside the try block raise a
store/connection error on this request. -/
structure FailureOracle where
  failGet : Bool
  failTtl : Bool
  failMulti : Bool
deriving DecidableEq, Repr

/-- The oracle of a healthy store: no operation fails. -/
def noFailure : FailureOracle := ⟨false, false, false⟩

/-- The Redis key of the guard: ratelimit:hashedIp:route. -/
def rlKey (hashedIp route : String) : String :=
  String.append (String.append (String.append "ratelimit:" hashedIp) ":") route

/-- handleRateLimit of rate-limit.guard.ts. Reads the counter; at or
above the limit it reads the TTL and throws the 429 HttpException
(modelled as the rejected decision, store untouched); below the limit it
runs the INCR+EXPIRE transaction and admits. The surrounding catch
rethrows the HttpException and converts any store error into an
admission (fail open), which the oracle branches reproduce: a failing
round trip short-circuits to allowed with the store unchanged. -/
def handleRateLimit (fo : FailureOracle) (s : Store) (now : Nat)
    (hashedIp route : String) (limit windowMs : Nat) : Decision × Store :=
  let windowSeconds := windowMs / 1000
  let key := rlKey hashedIp route
  if fo.failGet then (.allowed, s)
  else
    let currentCount := (redisGet s now key).getD 0
    if limit ≤ currentCount then
      if fo.failTtl then (.allowed, s)
      else
        let ttl := redisTtl s now key
        (.rejected ⟨429, limit, currentCount, 0, (now : Int) + ttl⟩, s)
    else
      if fo.failMulti then (.allowed, s)
      else (.allowed, multiIncrExpire s now key windowSeconds)

/-- A store/connection failure happened on a Redis round trip that the
control flow of handleRateLimit actually reaches: the GET always runs;
the TTL read runs only at or above the limit; the INCR+EXPIRE
transaction runs only below the limit. -/
def reachedStoreFailure (fo : FailureOracle) (s : Store) (now : Nat)
    (key : String) (limit : Nat) : Prop :=
  fo.failGet = true ∨
  (fo.failGet = false ∧ limit ≤ (redisGet s now key).getD 0 ∧ fo.failTtl = true) ∨
  (fo.failGet = false ∧ (redisGet s now key).getD 0 < limit ∧ fo.failMulti = true)

/- ===== Part 2: cache service (src/common/services/cache.service.ts) ===== -/

/-- A JavaScript value as handled by the cache service: null, undefined,
primitives, or a plain object given by its fields. Only the
JSON-relevant fragment is modelled (no functions, dates, symbols). -/
inductive CVal where
  | vnull
  | vundef
  | vbool (b : Bool)
  | vnum (n : Int)
  | vstr (s : String)
  | vobj (fields : List (String × CVal))

/-- The condition of the clone branches: `typeof value` is object and
`value` is not null. In the model only `vobj` satisfies both (null has
typeof object in JavaScript but is excluded by the explicit null
check). -/
def isObjectNotNull : CVal → Bool
  | .vobj _ => true
  | _ => false

mutual
/-- JSON.parse of JSON.stringify on a value: object fields whose value is
undefined are dropped by JSON.stringify, everything else in the modelled
fragment survives structurally. -/
def jsonRound : CVal → CVal
  | .vobj fs => .vobj (jsonRoundFields fs)
  | v => v

/-- jsonRound on the field list of an object. -/
def jsonRoundFields : List (String × CVal) → List (String × CVal)
  | [] => []
  | (_, .vundef) :: rest => jsonRoundFields rest
  | (s, v) :: rest => (s, jsonRound v) :: jsonRoundFields rest
end

/-- Association-list lookup for string-keyed maps. -/
def lookupKey {β : Type} : List (String × β) → String → Option β
  | [], _ => none
  | (k, v) :: rest, k' => if k' = k then some v else lookupKey rest k'

/-- Remove a key from a string-keyed association list. -/
def removeKey {β : Type} (l : List (String × β)) (k : String) : List (String × β) :=
  l.filter (fun p => p.1 ≠ k)

/-- Insert or overwrite a key in a string-keyed association list. -/
def insertKey {β : Type} (l : List (String × β)) (k : String) (v : β) : List (String × β) :=
  (k, v) :: removeKey l k

/-- Add a key to the tracking set (a set: no duplicate insertion). -/
def addTracked (t : List String) (k : String) : List String :=
  if k ∈ t then t else k :: t

/-- Remove a key from the tracking set. -/
def removeTracked (t : List String) (k : String) : List String :=
  t.filter (fun k' => k' ≠ k)

/-- In-process state of the cache service: the cache manager contents
(keyed by namespaced key; absence doubles for natural expiry) and the
cachedKeys tracking set. -/
structure CState where
  store : List (String × CVal)
  tracked : List String

/-- The freshly constructed service: nothing cached, nothing tracked. -/
def CState.empty : CState := ⟨[], []⟩

/-- The errors the service can raise internally: the key-validation
error of getNamespacedKey, the array-shape validation error of
mset/mget, and a store-level failure of the cache manager. -/
inductive CacheError where
  | invalidKey
  | invalidArg
  | storeError
deriving DecidableEq, Repr

/-- The namespace computed in the constructor:
taskflow:NODE_ENV:. -/
def namespaceOf (env : String) : String :=
  String.append (String.append "taskflow:" env) ":"

/-- getNamespacedKey: throws when the key is empty, else prefixes the
namespace. For a typed string argument the typeof-string disjunct of the
source test is vacuous, and the falsiness test on a string is true
exactly on the empty string. -/
def getNamespacedKey (ns k : String) : Except CacheError String :=
  if k = "" then .error .invalidKey else .ok (String.append ns k)

/-- The try-block of set: validate the key, clone object values via the
JSON round trip, write through the cache manager (which may fail, per
the `fail` oracle), then record the namespaced key in the tracking set.
The tracking-set insertion happens after the awaited write, so a store
failure leaves the set untouched. -/
def setBody (ns : String) (fail : Bool) (st : CState) (k : String) (v : CVal)
    (_ttlSeconds : Nat) : Except CacheError CState :=
  match getNamespacedKey ns k with
  | .error e => .error e
  | .ok nk =>
    let valueToStore := if isObjectNotNull v then jsonRound v else v
    if fail then .error .storeError
    else .ok { store := insertKey st.store nk valueToStore,
               tracked := addTracked st.tracked nk }

/-- set with its catch: any internal error is logged and swallowed, the
state is left unchanged and the call returns normally. -/
def setCaught (ns : String) (fail : Bool) (st : CState) (k : String) (v : CVal)
    (ttlSeconds : Nat) : CState :=
  match setBody ns fail st k v ttlSeconds with
  | .ok st' => st'
  | .error _ => st

/-- set as seen by the caller: the catch guarantees a normal return. -/
def CacheService.set (ns : String) (fail : Bool) (st : CState) (k : String)
    (v : CVal) (ttlSeconds : Nat) : Except CacheError CState :=
  .ok (setCaught ns fail st k v ttlSeconds)

/-- The try-block of get: validate the key, read through the cache
manager (none models the nil/undefined miss reply), deep-clone object
results via the JSON round trip before returning. -/
def getBody (ns : String) (fail : Bool) (st : CState) (k : String) :
    Except CacheError (Option CVal) :=
  match getNamespacedKey ns k with
  | .error e => .error e
  | .ok nk =>
    if fail then .error .storeError
    else
      match lookupKey st.store nk with
      | none => .ok none
      | some v => .ok (some (if isObjectNotNull v then jsonRound v else v))

/-- get with its catch: any internal error is logged and null is
returned. -/
def getCaught (ns : String) (fail : Bool) (st : CState) (k : String) : Option CVal :=
  match getBody ns fail st k with
  | .ok r => r
  | .error _ => none

/-- get as seen by the caller: never throws. -/
def CacheService.get (ns : String) (fail : Bool) (st : CState) (k : String) :
    Except CacheError (Option CVal) :=
  .ok (getCaught ns fail st k)

/-- The try-block of delete: validate, delete from the store, then drop
the namespaced key from the tracking set; returns true. -/
def deleteBody (ns : String) (fail : Bool) (st : CState) (k : String) :
    Except CacheError (CState × Bool) :=
  match getNamespacedKey ns k with
  | .error e => .error e
  | .ok nk =>
    if fail then .error .storeError
    else .ok ({ store := removeKey st.store nk,
                tracked := removeTracked st.tracked nk }, true)

/-- delete with its catch: errors are logged and false is returned with
the state unchanged. -/
def deleteCaught (ns : String) (fail : Bool) (st : CState) (k : String) : CState × Bool :=
  match deleteBody ns fail st k with
  | .ok r => r
  | .error _ => (st, false)

/-- delete as seen by the caller: never throws. -/
def CacheService.delete (ns : String) (fail : Bool) (st : CState) (k : String) :
    Except CacheError (CState × Bool) :=
  .ok (deleteCaught ns fail st k)

/-- The value-presence test of has: `value !== undefined && value !== null`.
A miss (none) and a stored null or undefined all count as absent. -/
def presentValue : Option CVal → Bool
  | none => false
  | some .vnull => false
  | some .vundef => false
  | some _ => true

/-- The try-block of has: validate, read, test presence. -/
def hasBody (ns : String) (fail : Bool) (st : CState) (k : String) :
    Except CacheError Bool :=
  match getNamespacedKey ns k with
  | .error e => .error e
  | .ok nk =>
    if fail then .error .storeError
    else .ok (presentValue (lookupKey st.store nk))

/-- has with its catch: any error counts as not present. -/
def hasCaught (ns : String) (fail : Bool) (st : CState) (k : String) : Bool :=
  match hasBody ns fail st k with
  | .ok b => b
  | .error _ => false

/-- has as seen by the caller: never throws. -/
def CacheService.has (ns : String) (fail : Bool) (st : CState) (k : String) :
    Except CacheError Bool :=
  .ok (hasCaught ns fail st k)

/-- clear: issue a delete for every tracked key, each wrapped in its own
catch (a failed delete, per the failDel oracle, is logged and leaves the
key in the store), then unconditionally reset the tracking set. -/
def clearCaught (failDel : String → Bool) (st : CState) : CState :=
  { store := st.tracked.foldl (fun acc k => if failDel k then acc else removeKey acc k) st.store,
    tracked := [] }

/-- clear as seen by the caller: never throws. -/
def CacheService.clear (failDel : String → Bool) (st : CState) :
    Except CacheError CState :=
  .ok (clearCaught failDel st)

/-- mset: rejects synchronously (before any try) when the argument is
not an array (modelled by none); otherwise fans out to set per entry
(the parallel Promise.all over distinct keys is modelled as a fold). -/
def CacheService.mset (ns : String) (fail : String → Bool) (st : CState)
    (entries : Option (List (String × CVal))) (ttlSeconds : Nat) :
    Except CacheError CState :=
  match entries with
  | none => .error .invalidArg
  | some es => .ok (es.foldl (fun acc p => setCaught ns (fail p.1) acc p.1 p.2 ttlSeconds) st)

/-- mget: rejects synchronously when the argument is not an array;
otherwise fans out to get per key and assembles the pairs keyed by the
original un-namespaced key (Object.fromEntries of the results). -/
def CacheService.mget (ns : String) (fail : String → Bool) (st : CState)
    (keys : Option (List String)) :
    Except CacheError (List (String × Option CVal)) :=
  match keys with
  | none => .error .invalidArg
  | some ks => .ok (ks.map (fun k => (k, getCaught ns (fail k) st k)))

/-- Every key in the cachedKeys tracking set carries the service
namespace taskflow:env: as a leading segment. -/
def TrackedNamespaced (ns : String) (st : CState) : Prop :=
  ∀ k ∈ st.tracked, ∃ rest, k = String.append ns rest

/- ===== Part 3: heap refinement of the clone mechanism =====

The copy-isolation invariant of set/get is about object identity, so it
cannot be seen on pure value trees. This part gives the cache the
standard JavaScript object model: primitives are immediate, objects live
in a heap and are passed by reference, and
JSON.parse(JSON.stringify(v)) materialises a structurally equal object
graph at fresh addresses. -/

/-- A JavaScript runtime value: immediate primitives or a reference
into the object heap. -/
inductive HVal where
  | hnull
  | hundef
  | hbool (b : Bool)
  | hnum (n : Int)
  | hstr (s : String)
  | href (a : Nat)
deriving DecidableEq, Repr

/-- A heap object: its named fields. -/
abbrev Obj := List (String × HVal)

/-- The heap: address = index, allocation appends at the end. -/
abbrev Heap := List Obj

/-- Is the value an object reference (typeof object and not null)? -/
def isRef : HVal → Bool
  | .href _ => true
  | _ => false

/-- Copy the fields of one object, threading the heap through the
per-field copies; the field copier is passed in so that the fuel
recursion stays structural. -/
def copyFieldsAux (f : Heap → HVal → Option (HVal × Heap)) :
    Heap → List (String × HVal) → Option (List (String × HVal) × Heap)
  | h, [] => some ([], h)
  | h, (s, v) :: rest =>
    match f h v with
    | none => none
    | some (v', h') =>
      match copyFieldsAux f h' rest with
      | none => none
      | some (rest', h'') => some ((s, v') :: rest', h'')

/-- JSON.parse of JSON.stringify as a heap operation: primitives are
returned unchanged, a reference is dereferenced, its fields are copied
recursively, and the copied object is allocated at a fresh address.
Fuel bounds the depth (stringify diverges on cyclic graphs; none models
that failure). -/
def copyVal : Nat → Heap → HVal → Option (HVal × Heap)
  | 0 => fun _ _ => none
  | fuel + 1 => fun h v =>
    match v with
    | .href a =>
      match h[a]? with
      | none => none
      | some fields =>
        match copyFieldsAux (copyVal fuel) h fields with
        | none => none
        | some (fields', h'') => some (.href h''.length, h'' ++ [fields'])
    | _ => some (v, h)

/-- The pure observation of a runtime value: the tree of primitives and
field structures reachable from it. Two values with equal trees are
indistinguishable to a caller that only reads. -/
inductive JTree where
  | tnull
  | tundef
  | tbool (b : Bool)
  | tnum (n : Int)
  | tstr (s : String)
  | tobj (fields : List (String × JTree))

/-- Tree observation of an object field list. -/
def toTreeFieldsAux (f : HVal → Option JTree) :
    List (String × HVal) → Option (List (String × JTree))
  | [] => some []
  | (s, v) :: rest =>
    match f v with
    | none => none
    | some t =>
      match toTreeFieldsAux f rest with
      | none => none
      | some ts => some ((s, t) :: ts)

/-- Tree observation of a value, with fuel bounding the depth. -/
def toTree : Nat → Heap → HVal → Option JTree
  | 0 => fun _ _ => none
  | fuel + 1 => fun h v =>
    match v with
    | .href a =>
      match h[a]? with
      | none => none
      | some fields =>
        match toTreeFieldsAux (toTree fuel h) fields with
        | none => none
        | some ts => some (.tobj ts)
    | .hnull => some .tnull
    | .hundef => some .tundef
    | .hbool b => some (.tbool b)
    | .hnum n => some (.tnum n)
    | .hstr s => some (.tstr s)

/-- A caller-side mutation: overwrite (or add) one field of the object
at address b. Out-of-range addresses are a no-op. -/
def setField (h : Heap) (b : Nat) (f : String) (u : HVal) : Heap :=
  match h[b]? with
  | none => h
  | some o => h.set b (insertKey o f u)

/-- The references of a value lie in the address set S. -/
def HVal.RefsIn (S : Nat → Prop) : HVal → Prop
  | .href a => S a
  | _ => True

instance {S : Nat → Prop} [DecidablePred S] : DecidablePred (HVal.RefsIn S) := fun v =>
  match v with
  | .href a => inferInstanceAs (Decidable (S a))
  | .hnull => .isTrue trivial
  | .hundef => .isTrue trivial
  | .hbool _ => .isTrue trivial
  | .hnum _ => .isTrue trivial
  | .hstr _ => .isTrue trivial

/-- Every object stored at an address in S has all its field references
in S: the S-part of the heap is closed. -/
def HeapClosedIn (S : Nat → Prop) (h : Heap) : Prop :=
  ∀ a, S a → ∀ o, h[a]? = some o → ∀ p ∈ o, HVal.RefsIn S p.2

/-- A well-formed heap: no dangling references anywhere. -/
def HeapWF (h : Heap) : Prop :=
  ∀ o ∈ h, ∀ p ∈ o, HVal.RefsIn (fun a => a < List.length h) p.2

instance (h : Heap) : Decidable (HeapWF h) :=
  inferInstanceAs (Decidable (∀ o ∈ h, ∀ p ∈ o, HVal.RefsIn (fun a => a < List.length h) p.2))

/-- The cache-manager map of the heap model: namespaced keys to stored
runtime values (references are stored as references: only the explicit
clone in set keeps the stored graph private). -/
abbrev CacheHM := List (String × HVal)

/-- set of the cache service on the heap model: key validation (caught
on failure), clone of object values via the JSON round trip, store of
the resulting value under the namespaced key. A clone failure is caught
by the catch block and leaves everything unchanged. -/
def hset (fuel : Nat) (heap : Heap) (cm : CacheHM) (ns k : String) (v : HVal) :
    Heap × CacheHM :=
  if k = "" then (heap, cm)
  else
    match (if isRef v then copyVal fuel heap v else some (v, heap)) with
    | none => (heap, cm)
    | some (v', heap') => (heap', insertKey cm (String.append ns k) v')

/-- get of the cache service on the heap model: a miss returns
undefined, an object result is deep-cloned before being returned (a
clone failure is caught and null is returned), primitives are returned
as stored. -/
def hget (fuel : Nat) (heap : Heap) (cm : CacheHM) (ns k : String) :
    HVal × Heap :=
  if k = "" then (.hnull, heap)
  else
    match lookupKey cm (String.append ns k) with
    | none => (.hundef, heap)
    | some v =>
      if isRef v then
        match copyVal fuel heap v with
        | none => (.hnull, heap)
        | some (v', heap') => (v', heap')
      else (v, heap)

/- ===== Theorems: rate limiter ===== -/

/-- Below the limit, a healthy store admits and runs the INCR+EXPIRE
transaction. -/
theorem handleRateLimit_allowed (s : Store) (now : Nat) (hashedIp route : String)
    (limit windowMs : Nat)
    (h : (redisGet s now (rlKey hashedIp route)).getD 0 < limit) :
    handleRateLimit noFailure s now hashedIp route limit windowMs =
      (.allowed, multiIncrExpire s now (rlKey hashedIp route) (windowMs / 1000)) := by
  simp [handleRateLimit, noFailure, Nat.not_le.mpr h]

/-- At or above the limit, a healthy store rejects with the counter, the
TTL-derived retry instant, and an untouched store. -/
theorem handleRateLimit_rejected (s : Store) (now : Nat) (hashedIp route : String)
    (limit windowMs : Nat)
    (h : limit ≤ (redisGet s now (rlKey hashedIp route)).getD 0) :
    handleRateLimit noFailure s now hashedIp route limit windowMs =
      (.rejected ⟨429, limit, (redisGet s now (rlKey hashedIp route)).getD 0, 0,
        (now : Int) + redisTtl s now (rlKey hashedIp route)⟩, s) := by
  simp [handleRateLimit, noFailure, h]

/-- A live entry with an expiry instant has not yet reached it. -/
theorem live_expiry_gt (s : Store) (now : Nat) (k : String) (e : RedisEntry) (t : Nat)
    (h : live s now k = some e) (ht : e.expiresAt = some t) : now < t := by
  cases hs : s k with
  | none => simp [live, hs] at h
  | some e0 =>
    cases he : e0.expiresAt with
    | none =>
      simp only [live, hs, he, Option.some.injEq] at h
      rw [← h, he] at ht
      cases ht
    | some t0 =>
      simp only [live, hs, he] at h
      by_cases hlt : now < t0
      · rw [if_pos hlt, Option.some.injEq] at h
        rw [← h, he] at ht
        cases ht
        omega
      · rw [if_neg hlt] at h
        cases h

/-- The transaction on an absent (or expired) key: INCR creates the
counter at 1 with no TTL, then EXPIRE installs the full window. -/
theorem multiIncrExpire_absent (s : Store) (now : Nat) (k : String) (secs : Nat)
    (h : live s now k = none) :
    multiIncrExpire s now k secs k = some ⟨1, some (now + secs)⟩ := by
  have hincr : redisIncr s now k k = some ⟨1, none⟩ := by
    simp [redisIncr, h]
  simp [multiIncrExpire, redisExpire, live, hincr]

/-- The transaction on a live key: INCR bumps the counter keeping the
TTL, then EXPIRE unconditionally resets the TTL to the full window. -/
theorem multiIncrExpire_live (s : Store) (now : Nat) (k : String) (secs : Nat)
    (e : RedisEntry) (h : live s now k = some e) :
    multiIncrExpire s now k secs k = some ⟨e.count + 1, some (now + secs)⟩ := by
  have hincr : redisIncr s now k k = some ⟨e.count + 1, e.expiresAt⟩ := by
    simp [redisIncr, h]
  cases he : e.expiresAt with
  | none => simp [multiIncrExpire, redisExpire, live, hincr, he]
  | some t =>
    have hlt := live_expiry_gt s now k e t h he
    simp [multiIncrExpire, redisExpire, live, hincr, he, hlt]

/-- A stored entry whose expiry instant lies ahead is live. -/
theorem live_of_future (s : Store) (now : Nat) (k : String) (c t : Nat)
    (hs : s k = some ⟨c, some t⟩) (ht : now < t) :
    live s now k = some ⟨c, some t⟩ := by
  simp [live, hs, ht]

/-- C1. The claim says the EXPIRE issued with every admitted request
leaves an existing remaining TTL unchanged. The code issues a plain
EXPIRE (no NX flag) inside the transaction, and Redis EXPIRE
unconditionally installs the new TTL on an existing key, so every
admitted request resets the window to its full length. Concrete run:
the key exists with counter 1 and 30 seconds remaining; after the next
admitted request the remaining TTL is 60 seconds, not 30. This also
contradicts the comment in the source (increment and set expiration if
it is a new key). -/
theorem c1_expire_resets_ttl :
    (let key := rlKey "h" "GET:/tasks"
     let s0 : Store := fun k => if k = key then some ⟨1, some 30⟩ else none
     let r := handleRateLimit noFailure s0 0 "h" "GET:/tasks" 3 60000
     redisTtl s0 0 key = 30 ∧
     r.1 = .allowed ∧
     r.2 key = some ⟨2, some 60⟩ ∧
     redisTtl r.2 0 key = 60) := by
  refine ⟨by decide, by decide, by decide, by decide⟩

/-- C3. Fail open: whenever a store/connection error occurs on a Redis
round trip that the admission check actually executes, handleRateLimit
catches it and admits the request with the store untouched; the error
never reaches the caller (the only non-allowed outcome of the model is
the typed 429 rejection). -/
theorem c3_fail_open (fo : FailureOracle) (s : Store) (now : Nat)
    (hashedIp route : String) (limit windowMs : Nat)
    (h : reachedStoreFailure fo s now (rlKey hashedIp route) limit) :
    (handleRateLimit fo s now hashedIp route limit windowMs).1 = .allowed ∧
    (handleRateLimit fo s now hashedIp route limit windowMs).2 = s := by
  rcases h with hg | ⟨hg, hc, ht⟩ | ⟨hg, hc, hm⟩
  · simp [handleRateLimit, hg]
  · simp [handleRateLimit, hg, hc, ht]
  · simp [handleRateLimit, hg, hm, Nat.not_le.mpr hc]

/-- Witness for C3: a GET failure on an empty store leads to
admission. -/
theorem c3_fail_open_witness :
    reachedStoreFailure ⟨true, false, false⟩ Store.empty 0 (rlKey "h" "GET:/tasks") 3 ∧
    (handleRateLimit ⟨true, false, false⟩ Store.empty 0 "h" "GET:/tasks" 3 60000).1 = .allowed ∧
    (handleRateLimit ⟨true, false, false⟩ Store.empty 0 "h" "GET:/tasks" 3 60000).2 = Store.empty :=
  ⟨Or.inl rfl, c3_fail_open ⟨true, false, false⟩ Store.empty 0 "h" "GET:/tasks" 3 60000 (Or.inl rfl)⟩

/-- C2. With policy limit=3, windowMs=60000 and a fresh key, four
requests from the same identity inside the 60-second window go: the
first three are admitted, the fourth is rejected with statusCode 429,
limit 3, current 3, remainingRequests 0 and next-valid-request instant
now plus the remaining TTL of the key; the rejection returns the store
exactly as it found it (no increment, no window reset or extension). -/
theorem c2_three_allowed_then_rejected (s0 : Store) (t1 t2 t3 t4 : Nat)
    (hip route : String)
    (h0 : s0 (rlKey hip route) = none)
    (h12 : t1 ≤ t2) (h23 : t2 ≤ t3) (h34 : t3 ≤ t4) (h4 : t4 < t1 + 60) :
    ∃ s1 s2 s3 : Store,
      handleRateLimit noFailure s0 t1 hip route 3 60000 = (.allowed, s1) ∧
      handleRateLimit noFailure s1 t2 hip route 3 60000 = (.allowed, s2) ∧
      handleRateLimit noFailure s2 t3 hip route 3 60000 = (.allowed, s3) ∧
      redisTtl s3 t4 (rlKey hip route) = (t3 : Int) + 60 - (t4 : Int) ∧
      handleRateLimit noFailure s3 t4 hip route 3 60000 =
        (.rejected ⟨429, 3, 3, 0,
          (t4 : Int) + redisTtl s3 t4 (rlKey hip route)⟩, s3) := by
  have hl0 : live s0 t1 (rlKey hip route) = none := by simp [live, h0]
  have e1 := handleRateLimit_allowed s0 t1 hip route 3 60000
    (by simp [redisGet, hl0])
  have hs1 : multiIncrExpire s0 t1 (rlKey hip route) 60 (rlKey hip route) =
      some ⟨1, some (t1 + 60)⟩ := multiIncrExpire_absent s0 t1 _ 60 hl0
  have hl1 : live (multiIncrExpire s0 t1 (rlKey hip route) 60) t2 (rlKey hip route) =
      some ⟨1, some (t1 + 60)⟩ :=
    live_of_future _ t2 _ 1 (t1 + 60) hs1 (by omega)
  have e2 := handleRateLimit_allowed (multiIncrExpire s0 t1 (rlKey hip route) 60)
    t2 hip route 3 60000 (by simp [redisGet, hl1])
  have hs2 := multiIncrExpire_live (multiIncrExpire s0 t1 (rlKey hip route) 60)
    t2 (rlKey hip route) 60 ⟨1, some (t1 + 60)⟩ hl1
  have hl2 : live (multiIncrExpire (multiIncrExpire s0 t1 (rlKey hip route) 60)
      t2 (rlKey hip route) 60) t3 (rlKey hip route) = some ⟨2, some (t2 + 60)⟩ :=
    live_of_future _ t3 _ 2 (t2 + 60) hs2 (by omega)
  have e3 := handleRateLimit_allowed (multiIncrExpire (multiIncrExpire s0 t1
      (rlKey hip route) 60) t2 (rlKey hip route) 60) t3 hip route 3 60000
    (by simp [redisGet, hl2])
  have hs3 := multiIncrExpire_live (multiIncrExpire (multiIncrExpire s0 t1
      (rlKey hip route) 60) t2 (rlKey hip route) 60) t3 (rlKey hip route) 60
    ⟨2, some (t2 + 60)⟩ hl2
  have hl3 : live (multiIncrExpire (multiIncrExpire (multiIncrExpire s0 t1
      (rlKey hip route) 60) t2 (rlKey hip route) 60) t3 (rlKey hip route) 60)
      t4 (rlKey hip route) = some ⟨3, some (t3 + 60)⟩ :=
    live_of_future _ t4 _ 3 (t3 + 60) hs3 (by omega)
  have httl : redisTtl (multiIncrExpire (multiIncrExpire (multiIncrExpire s0 t1
      (rlKey hip route) 60) t2 (rlKey hip route) 60) t3 (rlKey hip route) 60)
      t4 (rlKey hip route) = (t3 : Int) + 60 - (t4 : Int) := by
    simp [redisTtl, hl3]
  have hg3 : (redisGet (multiIncrExpire (multiIncrExpire (multiIncrExpire s0 t1
      (rlKey hip route) 60) t2 (rlKey hip route) 60) t3 (rlKey hip route) 60)
      t4 (rlKey hip route)).getD 0 = 3 := by
    simp [redisGet, hl3]
  have e4 := handleRateLimit_rejected (multiIncrExpire (multiIncrExpire
      (multiIncrExpire s0 t1 (rlKey hip route) 60) t2 (rlKey hip route) 60)
      t3 (rlKey hip route) 60) t4 hip route 3 60000 (by rw [hg3])
  rw [hg3] at e4
  refine ⟨_, _, _, by simpa using e1, by simpa using e2, by simpa using e3, httl, e4⟩

/-- Witness for C2: four immediate requests on an empty store. -/
theorem c2_three_allowed_then_rejected_witness :
    Store.empty (rlKey "h" "GET:/tasks") = none ∧
    (∃ s1 s2 s3 : Store,
      handleRateLimit noFailure Store.empty 0 "h" "GET:/tasks" 3 60000 = (.allowed, s1) ∧
      handleRateLimit noFailure s1 0 "h" "GET:/tasks" 3 60000 = (.allowed, s2) ∧
      handleRateLimit noFailure s2 0 "h" "GET:/tasks" 3 60000 = (.allowed, s3) ∧
      redisTtl s3 0 (rlKey "h" "GET:/tasks") = (0 : Int) + 60 - (0 : Int) ∧
      handleRateLimit noFailure s3 0 "h" "GET:/tasks" 3 60000 =
        (.rejected ⟨429, 3, 3, 0,
          (0 : Int) + redisTtl s3 0 (rlKey "h" "GET:/tasks")⟩, s3)) :=
  ⟨rfl, c2_three_allowed_then_rejected Store.empty 0 0 0 0 "h" "GET:/tasks" rfl
    (by decide) (by decide) (by decide) (by decide)⟩

/- ===== Theorems: cache service ===== -/

/-- Looking up a freshly inserted key yields the inserted value. -/
theorem lookupKey_insert_self {β : Type} (l : List (String × β)) (k : String) (v : β) :
    lookupKey (insertKey l k v) k = some v := by
  simp [insertKey, lookupKey]

/-- Looking up a removed key yields nothing. -/
theorem lookupKey_remove_self {β : Type} (l : List (String × β)) (k : String) :
    lookupKey (removeKey l k) k = none := by
  induction l with
  | nil => rfl
  | cons p rest ih =>
    by_cases hp : p.1 = k
    · simpa [removeKey, List.filter_cons, hp] using ih
    · have hk : ¬ k = p.1 := fun h => hp h.symm
      simpa [removeKey, List.filter_cons, hp, lookupKey, hk] using ih

/-- Removing one key does not change lookups of another. -/
theorem lookupKey_remove_ne {β : Type} (l : List (String × β)) (k k' : String)
    (h : k ≠ k') : lookupKey (removeKey l k') k = lookupKey l k := by
  induction l with
  | nil => rfl
  | cons p rest ih =>
    by_cases hp : p.1 = k'
    · have hk : ¬ k = p.1 := fun hh => h (hh.trans hp)
      simpa [removeKey, List.filter_cons, hp, lookupKey, hk, h] using ih
    · by_cases hk : k = p.1
      · simp [removeKey, List.filter_cons, hp, lookupKey, hk]
      · simpa [removeKey, List.filter_cons, hp, lookupKey, hk] using ih

/-- C5. get returns null on a true miss and on any internal error, and
never throws: every call returns normally; when the namespaced key is
absent from the store the result is null whatever the store health; and
when the store read fails the result is null whatever is cached. -/
theorem c5_get_null_on_miss_and_error (ns : String) (fail : Bool) (st : CState)
    (k : String) :
    CacheService.get ns fail st k = .ok (getCaught ns fail st k) ∧
    (lookupKey st.store (String.append ns k) = none →
      CacheService.get ns fail st k = .ok none) ∧
    (fail = true → CacheService.get ns fail st k = .ok none) := by
  refine ⟨rfl, ?_, ?_⟩
  · intro hmiss
    by_cases hk : k = ""
    · simp [CacheService.get, getCaught, getBody, getNamespacedKey, hk]
    · cases fail with
      | true => simp [CacheService.get, getCaught, getBody, getNamespacedKey, hk]
      | false => simp [CacheService.get, getCaught, getBody, getNamespacedKey, hk, hmiss]
  · intro hfail
    subst hfail
    by_cases hk : k = "" <;>
      simp [CacheService.get, getCaught, getBody, getNamespacedKey, hk]

/-- Witness for C5: a never-set key on the fresh service reads null. -/
theorem c5_get_null_witness :
    lookupKey CState.empty.store
      (String.append "taskflow:development:" "missing-key") = none ∧
    CacheService.get "taskflow:development:" false CState.empty "missing-key" =
      .ok none :=
  ⟨rfl, (c5_get_null_on_miss_and_error "taskflow:development:" false CState.empty
    "missing-key").2.1 rfl⟩

/-- C4 counterexample. The claim says the empty-key validation error of
set propagates to the caller. In the code getNamespacedKey is invoked
inside the try block of set, so the error it raises is caught by the
catch (logged, no-op): the validation error does fire in the body, yet
set returns normally with the state unchanged. -/
theorem c4_set_empty_key_does_not_throw :
    setBody "taskflow:development:" false CState.empty "" .vnull 300 =
      .error .invalidKey ∧
    CacheService.set "taskflow:development:" false CState.empty "" .vnull 300 =
      .ok CState.empty :=
  ⟨rfl, rfl⟩

/-- C4 amended. The cache service propagates exactly one class of error
to callers: the list-shape validation of mset/mget, raised before any
try block. set, get, delete, has and clear always return normally
(store failures and the key-validation error of set are absorbed by
their catch blocks), while mset and mget throw exactly when their
argument is not an array and otherwise return normally. -/
theorem c4_error_propagation (ns : String) (fail : Bool) (faild : String → Bool)
    (st : CState) (k : String) (v : CVal) (ttl : Nat) :
    CacheService.set ns fail st k v ttl = .ok (setCaught ns fail st k v ttl) ∧
    CacheService.get ns fail st k = .ok (getCaught ns fail st k) ∧
    CacheService.delete ns fail st k = .ok (deleteCaught ns fail st k) ∧
    CacheService.has ns fail st k = .ok (hasCaught ns fail st k) ∧
    CacheService.clear faild st = .ok (clearCaught faild st) ∧
    CacheService.mset ns faild st none ttl = .error .invalidArg ∧
    (∀ es, CacheService.mset ns faild st (some es) ttl =
      .ok (es.foldl (fun acc p => setCaught ns (faild p.1) acc p.1 p.2 ttl) st)) ∧
    CacheService.mget ns faild st none = .error .invalidArg ∧
    (∀ ks, CacheService.mget ns faild st (some ks) =
      .ok (ks.map (fun k' => (k', getCaught ns (faild k') st k')))) ∧
    (k = "" → setBody ns fail st k v ttl = .error .invalidKey ∧
      CacheService.set ns fail st k v ttl = .ok st) := by
  refine ⟨rfl, rfl, rfl, rfl, rfl, rfl, fun es => rfl, rfl, fun ks => rfl, ?_⟩
  intro hk
  subst hk
  exact ⟨rfl, rfl⟩

/-- Witness for C4 amended: concrete empty-key call. -/
theorem c4_error_propagation_witness :
    ("" : String) = "" ∧
    setBody "taskflow:development:" false CState.empty "" .vnull 300 =
      .error .invalidKey ∧
    CacheService.set "taskflow:development:" false CState.empty "" .vnull 300 =
      .ok CState.empty :=
  ⟨rfl,
    (c4_error_propagation "taskflow:development:" false (fun _ => false)
      CState.empty "" .vnull 300).2.2.2.2.2.2.2.2.2 rfl⟩

/-- C10. Storing null: the clone branch asks for typeof object and not
null, so null is stored as-is; has then reads the stored null and its
presence test (value not undefined and not null) returns false, exactly
as for a key that was never cached — a cached null is indistinguishable
from absence. -/
theorem c10_stored_null_reads_absent (ns : String) (st : CState) (k : String)
    (ttl : Nat) (hk : k ≠ "") :
    lookupKey (setCaught ns false st k .vnull ttl).store (String.append ns k) =
      some .vnull ∧
    hasCaught ns false (setCaught ns false st k .vnull ttl) k = false ∧
    (∀ k', lookupKey st.store (String.append ns k') = none →
      hasCaught ns false st k' = false) := by
  have hset : setCaught ns false st k .vnull ttl =
      { store := insertKey st.store (String.append ns k) .vnull,
        tracked := addTracked st.tracked (String.append ns k) } := by
    simp [setCaught, setBody, getNamespacedKey, hk, isObjectNotNull]
  refine ⟨?_, ?_, ?_⟩
  · rw [hset]
    exact lookupKey_insert_self st.store (String.append ns k) .vnull
  · rw [hset]
    simp [hasCaught, hasBody, getNamespacedKey, hk,
      lookupKey_insert_self, presentValue]
  · intro k' hmiss
    by_cases hk' : k' = ""
    · simp [hasCaught, hasBody, getNamespacedKey, hk']
    · simp [hasCaught, hasBody, getNamespacedKey, hk', hmiss, presentValue]

/-- Witness for C10: set null under the key k on the fresh service. -/
theorem c10_stored_null_reads_absent_witness :
    ("k" : String) ≠ "" ∧
    hasCaught "taskflow:development:"
      false (setCaught "taskflow:development:" false CState.empty "k" .vnull 300)
      "k" = false :=
  ⟨by decide,
    (c10_stored_null_reads_absent "taskflow:development:" CState.empty "k" 300
      (by decide)).2.1⟩

/-- An absent key stays absent through the delete fold of clear. -/
theorem lookup_clearFold_none {β : Type} (failDel : String → Bool) :
    ∀ (l : List String) (acc : List (String × β)) (k : String),
      lookupKey acc k = none →
      lookupKey (l.foldl (fun a k' => if failDel k' then a else removeKey a k') acc) k
        = none := by
  intro l
  induction l with
  | nil => intro acc k h; exact h
  | cons x rest ih =>
    intro acc k h
    simp only [List.foldl_cons]
    apply ih
    by_cases hx : failDel x
    · simpa [hx] using h
    · rw [if_neg (by simp [hx])]
      by_cases hk : k = x
      · subst hk; exact lookupKey_remove_self acc k
      · rw [lookupKey_remove_ne acc k x hk]; exact h

/-- A key of the fold whose delete does not fail ends up absent. -/
theorem lookup_clearFold_deleted {β : Type} (failDel : String → Bool) :
    ∀ (l : List String) (acc : List (String × β)) (k : String),
      k ∈ l → failDel k = false →
      lookupKey (l.foldl (fun a k' => if failDel k' then a else removeKey a k') acc) k
        = none := by
  intro l
  induction l with
  | nil => intro acc k h; cases h
  | cons x rest ih =>
    intro acc k hmem hf
    simp only [List.foldl_cons]
    rcases List.mem_cons.mp hmem with rfl | hmem'
    · apply lookup_clearFold_none
      rw [if_neg (by simp [hf])]
      exact lookupKey_remove_self acc k
    · exact ih _ k hmem' hf

/-- A key removed by no step of the fold keeps its binding. -/
theorem lookup_clearFold_untouched {β : Type} (failDel : String → Bool) :
    ∀ (l : List String) (acc : List (String × β)) (k : String),
      (∀ x ∈ l, failDel x = true ∨ x ≠ k) →
      lookupKey (l.foldl (fun a k' => if failDel k' then a else removeKey a k') acc) k
        = lookupKey acc k := by
  intro l
  induction l with
  | nil => intro acc k _; rfl
  | cons x rest ih =>
    intro acc k hcond
    simp only [List.foldl_cons]
    rw [ih _ k (fun y hy => hcond y (List.mem_cons_of_mem x hy))]
    rcases hcond x (List.mem_cons_self x rest) with hx | hx
    · rw [if_pos hx]
    · by_cases hfx : failDel x
      · rw [if_pos hfx]
      · rw [if_neg hfx, lookupKey_remove_ne acc k x (Ne.symm hx)]

/-- C7. clear issues a delete per tracked key and resets the tracking
set unconditionally: afterwards the set is empty whatever the delete
outcomes; every tracked key whose delete did not fail is absent from the
store; a tracked key whose delete failed keeps its binding (the failure
is tolerated, not propagated); untracked keys are never touched. -/
theorem c7_clear_resets_tracking (failDel : String → Bool) (st : CState) :
    (clearCaught failDel st).tracked = [] ∧
    (∀ k ∈ st.tracked, failDel k = false →
      lookupKey (clearCaught failDel st).store k = none) ∧
    (∀ k ∈ st.tracked, failDel k = true →
      lookupKey (clearCaught failDel st).store k = lookupKey st.store k) ∧
    (∀ k, k ∉ st.tracked →
      lookupKey (clearCaught failDel st).store k = lookupKey st.store k) := by
  refine ⟨rfl, ?_, ?_, ?_⟩
  · intro k hk hf
    exact lookup_clearFold_deleted failDel st.tracked st.store k hk hf
  · intro k _ hf
    apply lookup_clearFold_untouched
    intro x _
    by_cases hx : x = k
    · subst hx; exact Or.inl hf
    · exact Or.inr hx
  · intro k hk
    apply lookup_clearFold_untouched
    intro x hx
    exact Or.inr (fun he => hk (he ▸ hx))

/-- Witness for C7: one tracked key, healthy deletes. -/
theorem c7_clear_resets_tracking_witness :
    ("taskflow:development:a" ∈
      (CState.mk [("taskflow:development:a", CVal.vnum 1)]
        ["taskflow:development:a"]).tracked) ∧
    (clearCaught (fun _ => false)
      (CState.mk [("taskflow:development:a", CVal.vnum 1)]
        ["taskflow:development:a"])).tracked = [] ∧
    lookupKey (clearCaught (fun _ => false)
      (CState.mk [("taskflow:development:a", CVal.vnum 1)]
        ["taskflow:development:a"])).store "taskflow:development:a" = none :=
  ⟨by simp,
    (c7_clear_resets_tracking (fun _ => false)
      (CState.mk [("taskflow:development:a", CVal.vnum 1)]
        ["taskflow:development:a"])).1,
    (c7_clear_resets_tracking (fun _ => false)
      (CState.mk [("taskflow:development:a", CVal.vnum 1)]
        ["taskflow:development:a"])).2.1 "taskflow:development:a" (by simp) rfl⟩

/-- C8. mget assembles, keyed by the original un-namespaced keys, the
per-key results of get; concretely, after mset of a=1 and b=2 on the
fresh service, mget of a, b, c yields a=1, b=2 and null for the
never-set c. -/
theorem c8_mget_original_keys (ns : String) (fail : String → Bool) (st : CState)
    (ks : List String) :
    CacheService.mget ns fail st (some ks) =
      .ok (ks.map (fun k => (k, getCaught ns (fail k) st k))) ∧
    (∃ st2 : CState,
      CacheService.mset "taskflow:development:" (fun _ => false) CState.empty
        (some [("a", .vnum 1), ("b", .vnum 2)]) 300 = .ok st2 ∧
      CacheService.mget "taskflow:development:" (fun _ => false) st2
        (some ["a", "b", "c"]) =
        .ok [("a", some (.vnum 1)), ("b", some (.vnum 2)), ("c", none)]) :=
  ⟨rfl, ⟨_, rfl, rfl⟩⟩

/-- set preserves the namespacing invariant of the tracking set: it only
ever adds the namespaced form of its key. -/
theorem tracked_setCaught (ns : String) (st : CState)
    (h : TrackedNamespaced ns st) (fail : Bool) (k : String) (v : CVal) (ttl : Nat) :
    TrackedNamespaced ns (setCaught ns fail st k v ttl) := by
  by_cases hk : k = ""
  · simpa [setCaught, setBody, getNamespacedKey, hk] using h
  · cases fail with
    | true => simpa [setCaught, setBody, getNamespacedKey, hk] using h
    | false =>
      have hset : setCaught ns false st k v ttl =
          { store := insertKey st.store (String.append ns k)
              (if isObjectNotNull v then jsonRound v else v),
            tracked := addTracked st.tracked (String.append ns k) } := by
        simp [setCaught, setBody, getNamespacedKey, hk]
      rw [hset]
      intro k' hk'
      simp only [addTracked] at hk'
      by_cases hmem : String.append ns k ∈ st.tracked
      · rw [if_pos hmem] at hk'
        exact h k' hk'
      · rw [if_neg hmem] at hk'
        rcases List.mem_cons.mp hk' with rfl | hk''
        · exact ⟨k, rfl⟩
        · exact h k' hk''

/-- The mset fold preserves the namespacing invariant. -/
theorem tracked_msetFold (ns : String) (fail : String → Bool) (ttl : Nat) :
    ∀ (es : List (String × CVal)) (st : CState), TrackedNamespaced ns st →
      TrackedNamespaced ns
        (es.foldl (fun acc p => setCaught ns (fail p.1) acc p.1 p.2 ttl) st) := by
  intro es
  induction es with
  | nil => intro st h; exact h
  | cons p rest ih =>
    intro st h
    simp only [List.foldl_cons]
    exact ih _ (tracked_setCaught ns st h (fail p.1) p.1 p.2 ttl)

/-- C9. Every key in the cachedKeys tracking set starts with the
namespace taskflow:env: and every operation preserves this: the fresh
service satisfies it, set adds only the namespaced form of its key,
delete only removes, clear empties the set, and mset folds set. -/
theorem c9_tracking_set_namespaced (env : String) (st : CState)
    (h : TrackedNamespaced (namespaceOf env) st) :
    TrackedNamespaced (namespaceOf env) CState.empty ∧
    (∀ fail k v ttl, TrackedNamespaced (namespaceOf env)
      (setCaught (namespaceOf env) fail st k v ttl)) ∧
    (∀ fail k, TrackedNamespaced (namespaceOf env)
      (deleteCaught (namespaceOf env) fail st k).1) ∧
    (∀ failDel, TrackedNamespaced (namespaceOf env) (clearCaught failDel st)) ∧
    (∀ (fail : String → Bool) (es : List (String × CVal)) (ttl : Nat),
      TrackedNamespaced (namespaceOf env)
      (es.foldl (fun acc p =>
        setCaught (namespaceOf env) (fail p.1) acc p.1 p.2 ttl) st)) := by
  refine ⟨?_, ?_, ?_, ?_, ?_⟩
  · intro k hk
    exact absurd hk (List.not_mem_nil k)
  · intro fail k v ttl
    exact tracked_setCaught (namespaceOf env) st h fail k v ttl
  · intro fail k
    by_cases hk : k = ""
    · simpa [deleteCaught, deleteBody, getNamespacedKey, hk] using h
    · cases fail with
      | true => simpa [deleteCaught, deleteBody, getNamespacedKey, hk] using h
      | false =>
        simp only [deleteCaught, deleteBody, getNamespacedKey, hk, if_neg]
        intro k' hk'
        simp only [removeTracked] at hk'
        exact h k' (List.mem_of_mem_filter hk')
  · intro failDel k hk
    exact absurd hk (List.not_mem_nil k)
  · intro fail es ttl
    exact tracked_msetFold (namespaceOf env) fail ttl es st h

/-- Witness for C9: the fresh service satisfies the invariant and a set
preserves it. -/
theorem c9_tracking_set_namespaced_witness :
    TrackedNamespaced (namespaceOf "development") CState.empty ∧
    TrackedNamespaced (namespaceOf "development")
      (setCaught (namespaceOf "development") false CState.empty "user:1"
        (.vnum 5) 300) :=
  ⟨fun k hk => absurd hk (List.not_mem_nil k),
    (c9_tracking_set_namespaced "development" CState.empty
      (fun k hk => absurd hk (List.not_mem_nil k))).2.1 false "user:1" (.vnum 5) 300⟩

/- ===== Theorems: copy isolation on the heap model ===== -/

/-- Reference sets of values are monotone in the address set. -/
theorem refsIn_mono {S T : Nat → Prop} (hST : ∀ a, S a → T a) (v : HVal)
    (h : HVal.RefsIn S v) : HVal.RefsIn T v := by
  cases v with
  | href a => exact hST a h
  | hnull => trivial
  | hundef => trivial
  | hbool b => trivial
  | hnum n => trivial
  | hstr s => trivial

/-- Tree observation of fields only depends on the per-value observer
pointwise on the fields. -/
theorem toTreeFieldsAux_congr {f g : HVal → Option JTree} :
    ∀ o : List (String × HVal), (∀ p ∈ o, f p.2 = g p.2) →
      toTreeFieldsAux f o = toTreeFieldsAux g o := by
  intro o
  induction o with
  | nil => intro _; rfl
  | cons p rest ih =>
    intro hfg
    obtain ⟨s, v⟩ := p
    simp only [toTreeFieldsAux]
    rw [hfg ⟨s, v⟩ (List.mem_cons_self _ _),
      ih (fun q hq => hfg q (List.mem_cons_of_mem _ hq))]

/-- The tree of a value whose references stay inside a closed address
set S only depends on the heap entries at S-addresses. -/
theorem toTree_congr {S : Nat → Prop} {h₁ h₂ : Heap}
    (hag : ∀ a, S a → h₁[a]? = h₂[a]?) (hcl : HeapClosedIn S h₁) :
    ∀ (fuel : Nat) (v : HVal), HVal.RefsIn S v →
      toTree fuel h₁ v = toTree fuel h₂ v := by
  intro fuel
  induction fuel with
  | zero => intro v _; rfl
  | succ n ih =>
    intro v hv
    cases v with
    | href a =>
      have ha : S a := hv
      simp only [toTree]
      rw [← hag a ha]
      cases hl : h₁[a]? with
      | none => rfl
      | some o =>
        have hfields := hcl a ha o hl
        have hfe : toTreeFieldsAux (toTree n h₁) o = toTreeFieldsAux (toTree n h₂) o :=
          toTreeFieldsAux_congr o (fun p hp => ih p.2 (hfields p hp))
        simp only [hfe]
    | hnull => rfl
    | hundef => rfl
    | hbool b => rfl
    | hnum m => rfl
    | hstr s => rfl

/-- Prefix heaps agree on the addresses of the shorter one. -/
theorem getElem?_of_heap_le {h h' : Heap} (hp : h <+: h') (a : Nat)
    (ha : a < h.length) : h'[a]? = h[a]? := by
  obtain ⟨t, rfl⟩ := hp
  exact List.getElem?_append_left ha

/-- A well-formed heap is closed below its length. -/
theorem heapWF_closed {h : Heap} (hw : HeapWF h) :
    HeapClosedIn (fun x => x < h.length) h := by
  intro a _ o ho p hp
  exact hw o (List.getElem?_mem ho) p hp

/-- Extending a heap (any extension at the end, possibly followed by
more allocation) does not change trees rooted in the old part. -/
theorem toTree_extend {h h2 : Heap} (hw : HeapWF h) (hp : h <+: h2)
    (fuel : Nat) (v : HVal) (hv : HVal.RefsIn (fun x => x < h.length) v) :
    toTree fuel h2 v = toTree fuel h v :=
  (toTree_congr (fun a ha => (getElem?_of_heap_le hp a ha).symm)
    (heapWF_closed hw) fuel v hv).symm

/-- Any heap whose addresses below the length of a prefix heap are
shared with it inherits its closure below that length. -/
theorem closedIn_of_le {h h2 : Heap} (hw : HeapWF h) (hp : h <+: h2) :
    HeapClosedIn (fun x => x < h.length) h2 := by
  intro a ha o ho p hpmem
  rw [getElem?_of_heap_le hp a ha] at ho
  exact hw o (List.getElem?_mem ho) p hpmem

/-- copyFieldsAux only ever extends the heap (given that the per-value
copier does). -/
theorem copyFieldsAux_extends (f : Heap → HVal → Option (HVal × Heap))
    (hf : ∀ h v v' h', f h v = some (v', h') → h <+: h') :
    ∀ (o : List (String × HVal)) (h : Heap) (o' : List (String × HVal)) (h' : Heap),
      copyFieldsAux f h o = some (o', h') → h <+: h' := by
  intro o
  induction o with
  | nil =>
    intro h o' h' he
    simp only [copyFieldsAux, Option.some.injEq, Prod.mk.injEq] at he
    rw [← he.2]
  | cons p rest ih =>
    intro h o' h' he
    obtain ⟨s, v⟩ := p
    simp only [copyFieldsAux] at he
    cases hfv : f h v with
    | none => rw [hfv] at he; cases he
    | some pr =>
      obtain ⟨v', h1⟩ := pr
      simp only [hfv] at he
      cases hrest : copyFieldsAux f h1 rest with
      | none => simp only [hrest] at he; cases he
      | some pr2 =>
        obtain ⟨rest', h2⟩ := pr2
        simp only [hrest, Option.some.injEq, Prod.mk.injEq] at he
        rw [← he.2]
        exact (hf h v v' h1 hfv).trans (ih h1 rest' h2 hrest)

/-- copyVal only ever extends the heap. -/
theorem copyVal_extends :
    ∀ (fuel : Nat) (h : Heap) (v v' : HVal) (h' : Heap),
      copyVal fuel h v = some (v', h') → h <+: h' := by
  intro fuel
  induction fuel with
  | zero => intro h v v' h' he; cases he
  | succ n ih =>
    intro h v v' h' he
    cases v with
    | href a =>
      simp only [copyVal] at he
      cases hl : h[a]? with
      | none => rw [hl] at he; cases he
      | some o =>
        rw [hl] at he
        cases hcf : copyFieldsAux (copyVal n) h o with
        | none => simp only [hcf] at he; cases he
        | some pr =>
          obtain ⟨o', h''⟩ := pr
          simp only [hcf, Option.some.injEq, Prod.mk.injEq] at he
          rw [← he.2]
          exact (copyFieldsAux_extends (copyVal n) ih o h o' h'' hcf).trans
            (List.prefix_append h'' [o'])
    | hnull => cases he; exact List.prefix_rfl
    | hundef => cases he; exact List.prefix_rfl
    | hbool b => cases he; exact List.prefix_rfl
    | hnum m => cases he; exact List.prefix_rfl
    | hstr s => cases he; exact List.prefix_rfl

/-- A heap short enough is vacuously closed at or above n. -/
theorem heapClosedGe_init (n : Nat) (h : Heap) (hn : h.length ≤ n) :
    HeapClosedIn (fun x => n ≤ x) h := by
  intro a ha o ho
  rw [List.getElem?_eq_none (le_trans hn ha)] at ho
  cases ho

/-- Appending one object whose fields point at or above n preserves
closure at or above n. -/
theorem heapClosedGe_append (n : Nat) (h : Heap) (o : Obj)
    (hc : HeapClosedIn (fun x => n ≤ x) h)
    (ho : ∀ p ∈ o, HVal.RefsIn (fun x => n ≤ x) p.2) :
    HeapClosedIn (fun x => n ≤ x) (h ++ [o]) := by
  intro a ha o' ho'
  rcases Nat.lt_trichotomy a h.length with hlt | heq | hgt
  · rw [List.getElem?_append_left hlt] at ho'
    exact hc a ha o' ho'
  · subst heq
    rw [List.getElem?_concat_length] at ho'
    cases ho'
    exact ho
  · rw [List.getElem?_eq_none (by simp; omega)] at ho'
    cases ho'

/-- The copy of a field list allocates only fresh objects: the copied
field values point at or above n, the heap stays closed at or above n,
and it only grows. -/
theorem copyFieldsAux_fresh (n : Nat) (f : Heap → HVal → Option (HVal × Heap))
    (hf : ∀ h v v' h', n ≤ h.length → HeapClosedIn (fun x => n ≤ x) h →
      f h v = some (v', h') →
      HVal.RefsIn (fun x => n ≤ x) v' ∧ n ≤ h'.length ∧
        HeapClosedIn (fun x => n ≤ x) h' ∧ h <+: h') :
    ∀ (o : List (String × HVal)) (h : Heap) (o' : List (String × HVal)) (h' : Heap),
      n ≤ h.length → HeapClosedIn (fun x => n ≤ x) h →
      copyFieldsAux f h o = some (o', h') →
      (∀ p ∈ o', HVal.RefsIn (fun x => n ≤ x) p.2) ∧ n ≤ h'.length ∧
        HeapClosedIn (fun x => n ≤ x) h' ∧ h <+: h' := by
  intro o
  induction o with
  | nil =>
    intro h o' h' hn hc he
    simp only [copyFieldsAux, Option.some.injEq, Prod.mk.injEq] at he
    refine ⟨?_, ?_, ?_, ?_⟩
    · intro p hp
      rw [← he.1] at hp
      cases hp
    · rw [← he.2]; exact hn
    · rw [← he.2]; exact hc
    · rw [← he.2]
  | cons p rest ih =>
    intro h o' h' hn hc he
    obtain ⟨s, v⟩ := p
    simp only [copyFieldsAux] at he
    cases hfv : f h v with
    | none => rw [hfv] at he; cases he
    | some pr =>
      obtain ⟨v', h1⟩ := pr
      simp only [hfv] at he
      obtain ⟨hv', hn1, hc1, hp1⟩ := hf h v v' h1 hn hc hfv
      cases hrest : copyFieldsAux f h1 rest with
      | none => simp only [hrest] at he; cases he
      | some pr2 =>
        obtain ⟨rest', h2⟩ := pr2
        simp only [hrest, Option.some.injEq, Prod.mk.injEq] at he
        obtain ⟨hrest', hn2, hc2, hp2⟩ := ih h1 rest' h2 hn1 hc1 hrest
        refine ⟨?_, ?_, ?_, ?_⟩
        · intro q hq
          rw [← he.1] at hq
          rcases List.mem_cons.mp hq with rfl | hq'
          · exact hv'
          · exact hrest' q hq'
        · rw [← he.2]; exact hn2
        · rw [← he.2]; exact hc2
        · rw [← he.2]; exact hp1.trans hp2

/-- The JSON round trip allocates only fresh objects: with every address
at or above n initially unoccupied-or-fresh, the copied value points at
or above n and the heap segment at or above n stays closed. -/
theorem copyVal_fresh (n : Nat) :
    ∀ (fuel : Nat) (h : Heap) (v v' : HVal) (h' : Heap),
      n ≤ h.length → HeapClosedIn (fun x => n ≤ x) h →
      copyVal fuel h v = some (v', h') →
      HVal.RefsIn (fun x => n ≤ x) v' ∧ n ≤ h'.length ∧
        HeapClosedIn (fun x => n ≤ x) h' ∧ h <+: h' := by
  intro fuel
  induction fuel with
  | zero => intro h v v' h' _ _ he; cases he
  | succ m ih =>
    intro h v v' h' hn hc he
    cases v with
    | href a =>
      simp only [copyVal] at he
      cases hl : h[a]? with
      | none => rw [hl] at he; cases he
      | some o =>
        rw [hl] at he
        cases hcf : copyFieldsAux (copyVal m) h o with
        | none => simp only [hcf] at he; cases he
        | some pr =>
          obtain ⟨o', h''⟩ := pr
          simp only [hcf, Option.some.injEq, Prod.mk.injEq] at he
          obtain ⟨ho', hn'', hc'', hp''⟩ := copyFieldsAux_fresh n (copyVal m) ih o h o' h'' hn hc hcf
          refine ⟨?_, ?_, ?_, ?_⟩
          · rw [← he.1]
            exact hn''
          · rw [← he.2]
            simp
            omega
          · rw [← he.2]
            exact heapClosedGe_append n h'' o' hc'' ho'
          · rw [← he.2]
            exact hp''.trans (List.prefix_append h'' [o'])
    | hnull => cases he; exact ⟨trivial, hn, hc, List.prefix_rfl⟩
    | hundef => cases he; exact ⟨trivial, hn, hc, List.prefix_rfl⟩
    | hbool b => cases he; exact ⟨trivial, hn, hc, List.prefix_rfl⟩
    | hnum m' => cases he; exact ⟨trivial, hn, hc, List.prefix_rfl⟩
    | hstr s => cases he; exact ⟨trivial, hn, hc, List.prefix_rfl⟩

/-- Appending a well-referenced object preserves heap well-formedness. -/
theorem heapWF_append (h : Heap) (o : Obj) (hw : HeapWF h)
    (ho : ∀ p ∈ o, HVal.RefsIn (fun x => x < h.length) p.2) :
    HeapWF (h ++ [o]) := by
  intro o' ho' p hp
  have hlen : (h ++ [o]).length = h.length + 1 := by simp
  rcases List.mem_append.mp ho' with hin | hin
  · exact refsIn_mono (fun a ha => by rw [hlen]; omega) p.2 (hw o' hin p hp)
  · rw [List.mem_singleton.mp hin] at hp
    exact refsIn_mono (fun a ha => by rw [hlen]; omega) p.2 (ho p hp)

/-- The copy of a field list preserves well-formedness and returns
non-dangling field values. -/
theorem copyFieldsAux_wf (f : Heap → HVal → Option (HVal × Heap))
    (hext : ∀ h v v' h', f h v = some (v', h') → h <+: h')
    (hf : ∀ h v v' h', HeapWF h → HVal.RefsIn (fun x => x < h.length) v →
      f h v = some (v', h') →
      HeapWF h' ∧ HVal.RefsIn (fun x => x < h'.length) v') :
    ∀ (o : List (String × HVal)) (h : Heap) (o' : List (String × HVal)) (h' : Heap),
      HeapWF h → (∀ p ∈ o, HVal.RefsIn (fun x => x < h.length) p.2) →
      copyFieldsAux f h o = some (o', h') →
      HeapWF h' ∧ (∀ p ∈ o', HVal.RefsIn (fun x => x < h'.length) p.2) := by
  intro o
  induction o with
  | nil =>
    intro h o' h' hw ho he
    simp only [copyFieldsAux, Option.some.injEq, Prod.mk.injEq] at he
    refine ⟨by rw [← he.2]; exact hw, ?_⟩
    intro p hp
    rw [← he.1] at hp
    cases hp
  | cons p rest ih =>
    intro h o' h' hw ho he
    obtain ⟨s, v⟩ := p
    simp only [copyFieldsAux] at he
    cases hfv : f h v with
    | none => rw [hfv] at he; cases he
    | some pr =>
      obtain ⟨v', h1⟩ := pr
      simp only [hfv] at he
      obtain ⟨hw1, hv'⟩ := hf h v v' h1 hw (ho ⟨s, v⟩ (List.mem_cons_self _ _)) hfv
      have hlen1 : h.length ≤ h1.length := (hext h v v' h1 hfv).length_le
      cases hrest : copyFieldsAux f h1 rest with
      | none => simp only [hrest] at he; cases he
      | some pr2 =>
        obtain ⟨rest', h2⟩ := pr2
        simp only [hrest, Option.some.injEq, Prod.mk.injEq] at he
        have hrests : ∀ p ∈ rest, HVal.RefsIn (fun x => x < h1.length) p.2 :=
          fun q hq => refsIn_mono (fun a ha => lt_of_lt_of_le ha hlen1) q.2
            (ho q (List.mem_cons_of_mem _ hq))
        obtain ⟨hw2, hrest'⟩ := ih h1 rest' h2 hw1 hrests hrest
        have hlen2 : h1.length ≤ h2.length :=
          (copyFieldsAux_extends f hext rest h1 rest' h2 hrest).length_le
        refine ⟨by rw [← he.2]; exact hw2, ?_⟩
        intro q hq
        rw [← he.1] at hq
        rcases List.mem_cons.mp hq with rfl | hq'
        · rw [← he.2]
          exact refsIn_mono (fun a ha => lt_of_lt_of_le ha hlen2) v' hv'
        · rw [← he.2]
          exact hrest' q hq'

/-- The JSON round trip preserves heap well-formedness and returns a
non-dangling value. -/
theorem copyVal_wf :
    ∀ (fuel : Nat) (h : Heap) (v v' : HVal) (h' : Heap),
      HeapWF h → HVal.RefsIn (fun x => x < h.length) v →
      copyVal fuel h v = some (v', h') →
      HeapWF h' ∧ HVal.RefsIn (fun x => x < h'.length) v' := by
  intro fuel
  induction fuel with
  | zero => intro h v v' h' _ _ he; cases he
  | succ m ih =>
    intro h v v' h' hw hv he
    cases v with
    | href a =>
      simp only [copyVal] at he
      cases hl : h[a]? with
      | none => rw [hl] at he; cases he
      | some o =>
        rw [hl] at he
        cases hcf : copyFieldsAux (copyVal m) h o with
        | none => simp only [hcf] at he; cases he
        | some pr =>
          obtain ⟨o', h''⟩ := pr
          simp only [hcf, Option.some.injEq, Prod.mk.injEq] at he
          have hofields : ∀ p ∈ o, HVal.RefsIn (fun x => x < h.length) p.2 :=
            hw o (List.getElem?_mem hl)
          obtain ⟨hw'', ho''⟩ := copyFieldsAux_wf (copyVal m)
            (copyVal_extends m) ih o h o' h'' hw hofields hcf
          refine ⟨?_, ?_⟩
          · rw [← he.2]
            exact heapWF_append h'' o' hw'' ho''
          · rw [← he.1, ← he.2]
            simp [HVal.RefsIn]
    | hnull => cases he; exact ⟨hw, trivial⟩
    | hundef => cases he; exact ⟨hw, trivial⟩
    | hbool b => cases he; exact ⟨hw, trivial⟩
    | hnum m' => cases he; exact ⟨hw, trivial⟩
    | hstr s => cases he; exact ⟨hw, trivial⟩

/-- The copies of a field list have, in any further extension of the
final heap, the same trees as the originals in the starting heap. -/
theorem copyFieldsAux_toTree (fuel : Nat)
    (ih : ∀ h v v' h', HeapWF h → HVal.RefsIn (fun x => x < h.length) v →
      copyVal fuel h v = some (v', h') → toTree fuel h' v' = toTree fuel h v) :
    ∀ (o : List (String × HVal)) (h : Heap) (o' : List (String × HVal)) (h'' : Heap),
      HeapWF h → (∀ p ∈ o, HVal.RefsIn (fun x => x < h.length) p.2) →
      copyFieldsAux (copyVal fuel) h o = some (o', h'') →
      ∀ hfin : Heap, h'' <+: hfin →
        toTreeFieldsAux (toTree fuel hfin) o' = toTreeFieldsAux (toTree fuel h) o := by
  intro o
  induction o with
  | nil =>
    intro h o' h'' hw ho he hfin hp
    simp only [copyFieldsAux, Option.some.injEq, Prod.mk.injEq] at he
    rw [← he.1]
    rfl
  | cons p rest ih2 =>
    intro h o' h'' hw ho he hfin hp
    obtain ⟨s, v⟩ := p
    simp only [copyFieldsAux] at he
    cases hfv : copyVal fuel h v with
    | none => rw [hfv] at he; cases he
    | some pr =>
      obtain ⟨v1, h1⟩ := pr
      simp only [hfv] at he
      cases hrest : copyFieldsAux (copyVal fuel) h1 rest with
      | none => simp only [hrest] at he; cases he
      | some pr2 =>
        obtain ⟨rest', h2⟩ := pr2
        simp only [hrest, Option.some.injEq, Prod.mk.injEq] at he
        have hv : HVal.RefsIn (fun x => x < h.length) v :=
          ho ⟨s, v⟩ (List.mem_cons_self _ _)
        obtain ⟨hw1, hv1⟩ := copyVal_wf fuel h v v1 h1 hw hv hfv
        have hext1 : h <+: h1 := copyVal_extends fuel h v v1 h1 hfv
        have hext2 : h1 <+: h2 :=
          copyFieldsAux_extends (copyVal fuel) (copyVal_extends fuel) rest h1 rest' h2 hrest
        have hfin1 : h1 <+: hfin := hext2.trans (he.2 ▸ hp)
        have thead : toTree fuel hfin v1 = toTree fuel h v := by
          rw [toTree_extend hw1 hfin1 fuel v1 hv1]
          exact ih h v v1 h1 hw hv hfv
        have hrests : ∀ q ∈ rest, HVal.RefsIn (fun x => x < h1.length) q.2 :=
          fun q hq => refsIn_mono (fun a ha => lt_of_lt_of_le ha hext1.length_le) q.2
            (ho q (List.mem_cons_of_mem _ hq))
        have ttail : toTreeFieldsAux (toTree fuel hfin) rest' =
            toTreeFieldsAux (toTree fuel h1) rest :=
          ih2 h1 rest' h2 hw1 hrests hrest hfin (he.2 ▸ hp)
        have ttail2 : toTreeFieldsAux (toTree fuel h1) rest =
            toTreeFieldsAux (toTree fuel h) rest :=
          toTreeFieldsAux_congr rest (fun q hq =>
            toTree_extend hw hext1 fuel q.2 (ho q (List.mem_cons_of_mem _ hq)))
        rw [← he.1]
        simp only [toTreeFieldsAux, thead, ttail, ttail2]

/-- The JSON round trip preserves the tree of the value: the copy reads
back exactly the structure of the original at copy time. -/
theorem copyVal_toTree :
    ∀ (fuel : Nat) (h : Heap) (v v' : HVal) (h' : Heap),
      HeapWF h → HVal.RefsIn (fun x => x < h.length) v →
      copyVal fuel h v = some (v', h') → toTree fuel h' v' = toTree fuel h v := by
  intro fuel
  induction fuel with
  | zero => intro h v v' h' _ _ he; cases he
  | succ m ih =>
    intro h v v' h' hw hv he
    cases v with
    | href a =>
      simp only [copyVal] at he
      cases hl : h[a]? with
      | none => rw [hl] at he; cases he
      | some o =>
        rw [hl] at he
        cases hcf : copyFieldsAux (copyVal m) h o with
        | none => simp only [hcf] at he; cases he
        | some pr =>
          obtain ⟨o', h''⟩ := pr
          simp only [hcf, Option.some.injEq, Prod.mk.injEq] at he
          have hofields : ∀ p ∈ o, HVal.RefsIn (fun x => x < h.length) p.2 :=
            hw o (List.getElem?_mem hl)
          have hfieldtrees := copyFieldsAux_toTree m ih o h o' h'' hw hofields hcf
            (h'' ++ [o']) (List.prefix_append h'' [o'])
          rw [← he.1, ← he.2]
          simp only [toTree, List.getElem?_concat_length, hl, hfieldtrees]
    | hnull => cases he; rfl
    | hundef => cases he; rfl
    | hbool b => cases he; rfl
    | hnum m' => cases he; rfl
    | hstr s => cases he; rfl

/-- Field-list copy succeeds exactly when field-list tree observation
does (same fuel). -/
theorem copyFieldsAux_isSome (fuel : Nat)
    (ih : ∀ h v, HeapWF h → HVal.RefsIn (fun x => x < h.length) v →
      (copyVal fuel h v).isSome = (toTree fuel h v).isSome) :
    ∀ (o : List (String × HVal)) (h : Heap),
      HeapWF h → (∀ p ∈ o, HVal.RefsIn (fun x => x < h.length) p.2) →
      (copyFieldsAux (copyVal fuel) h o).isSome =
        (toTreeFieldsAux (toTree fuel h) o).isSome := by
  intro o
  induction o with
  | nil => intro h _ _; rfl
  | cons p rest ih2 =>
    intro h hw ho
    obtain ⟨s, v⟩ := p
    have hv : HVal.RefsIn (fun x => x < h.length) v :=
      ho ⟨s, v⟩ (List.mem_cons_self _ _)
    have hrests : ∀ q ∈ rest, HVal.RefsIn (fun x => x < h.length) q.2 :=
      fun q hq => ho q (List.mem_cons_of_mem _ hq)
    cases hfv : copyVal fuel h v with
    | none =>
      have hnone : toTree fuel h v = none := by
        cases htv : toTree fuel h v with
        | none => rfl
        | some t =>
          have hi := ih h v hw hv
          rw [hfv, htv] at hi
          cases hi
      simp [copyFieldsAux, toTreeFieldsAux, hfv, hnone]
    | some pr =>
      obtain ⟨v1, h1⟩ := pr
      have hsome : (toTree fuel h v).isSome = true := by rw [← ih h v hw hv, hfv]; rfl
      obtain ⟨t, ht⟩ := Option.isSome_iff_exists.mp hsome
      obtain ⟨hw1, _⟩ := copyVal_wf fuel h v v1 h1 hw hv hfv
      have hext1 : h <+: h1 := copyVal_extends fuel h v v1 h1 hfv
      have hrests1 : ∀ q ∈ rest, HVal.RefsIn (fun x => x < h1.length) q.2 :=
        fun q hq => refsIn_mono (fun a ha => lt_of_lt_of_le ha hext1.length_le) q.2
          (hrests q hq)
      have heq1 : toTreeFieldsAux (toTree fuel h1) rest =
          toTreeFieldsAux (toTree fuel h) rest :=
        toTreeFieldsAux_congr rest (fun q hq =>
          toTree_extend hw hext1 fuel q.2 (hrests q hq))
      have hiso := ih2 h1 hw1 hrests1
      rw [heq1] at hiso
      cases hcr : copyFieldsAux (copyVal fuel) h1 rest with
      | none =>
        rw [hcr] at hiso
        cases htr : toTreeFieldsAux (toTree fuel h) rest with
        | none => simp [copyFieldsAux, toTreeFieldsAux, hfv, ht, hcr, htr]
        | some ts => rw [htr] at hiso; cases hiso
      | some pr2 =>
        obtain ⟨rest2, h2⟩ := pr2
        rw [hcr] at hiso
        cases htr : toTreeFieldsAux (toTree fuel h) rest with
        | none => rw [htr] at hiso; cases hiso
        | some ts => simp [copyFieldsAux, toTreeFieldsAux, hfv, ht, hcr, htr]

/-- Value copy succeeds exactly when tree observation does (same
fuel): both recurse through the same references with the same fuel. -/
theorem copyVal_isSome :
    ∀ (fuel : Nat) (h : Heap) (v : HVal),
      HeapWF h → HVal.RefsIn (fun x => x < h.length) v →
      (copyVal fuel h v).isSome = (toTree fuel h v).isSome := by
  intro fuel
  induction fuel with
  | zero => intro h v _ _; rfl
  | succ m ih =>
    intro h v hw hv
    cases v with
    | href a =>
      cases hl : h[a]? with
      | none => simp [copyVal, toTree, hl]
      | some o =>
        have hofields : ∀ p ∈ o, HVal.RefsIn (fun x => x < h.length) p.2 :=
          hw o (List.getElem?_mem hl)
        have hiso := copyFieldsAux_isSome m ih o h hw hofields
        cases hcf : copyFieldsAux (copyVal m) h o with
        | none =>
          rw [hcf] at hiso
          cases htf : toTreeFieldsAux (toTree m h) o with
          | none => simp [copyVal, toTree, hl, hcf, htf]
          | some ts => rw [htf] at hiso; cases hiso
        | some pr =>
          obtain ⟨o', h''⟩ := pr
          rw [hcf] at hiso
          cases htf : toTreeFieldsAux (toTree m h) o with
          | none => rw [htf] at hiso; cases hiso
          | some ts => simp [copyVal, toTree, hl, hcf, htf]
    | hnull => rfl
    | hundef => rfl
    | hbool b => rfl
    | hnum m' => rfl
    | hstr s => rfl

/-- A field write never changes the number of heap objects. -/
theorem setField_length (h : Heap) (b : Nat) (f : String) (u : HVal) :
    (setField h b f u).length = h.length := by
  unfold setField
  cases h[b]? <;> simp

/-- A field write at address b leaves every other address unchanged. -/
theorem setField_getElem_ne (h : Heap) (b : Nat) (f : String) (u : HVal)
    (a : Nat) (hab : a ≠ b) : (setField h b f u)[a]? = h[a]? := by
  unfold setField
  cases h[b]? with
  | none => rfl
  | some o => exact List.getElem?_set_ne (Ne.symm hab)

/-- A field write at a nonexistent address is a no-op. -/
theorem setField_oob (h : Heap) (b : Nat) (f : String) (u : HVal)
    (hb : h.length ≤ b) : setField h b f u = h := by
  unfold setField
  rw [List.getElem?_eq_none hb]

/-- A field write of a non-dangling value keeps the heap well-formed. -/
theorem setField_wf (h : Heap) (b : Nat) (f : String) (u : HVal)
    (hw : HeapWF h) (hu : HVal.RefsIn (fun x => x < h.length) u) :
    HeapWF (setField h b f u) := by
  intro o' ho' p hp
  simp only [setField_length]
  cases hb : h[b]? with
  | none =>
    simp only [setField, hb] at ho'
    exact hw o' ho' p hp
  | some o =>
    simp only [setField, hb] at ho'
    rcases List.mem_or_eq_of_mem_set ho' with hin | rfl
    · exact hw o' hin p hp
    · rcases List.mem_cons.mp hp with rfl | hin'
      · exact hu
      · exact hw o (List.getElem?_mem hb) p (List.mem_of_mem_filter hin')

/-- Copying a reference yields a reference (to the fresh object). -/
theorem copyVal_href_isRef :
    ∀ (fuel : Nat) (h : Heap) (a : Nat) (w : HVal) (h' : Heap),
      copyVal fuel h (.href a) = some (w, h') → isRef w = true := by
  intro fuel
  cases fuel with
  | zero => intro h a w h' he; cases he
  | succ m =>
    intro h a w h' he
    simp only [copyVal] at he
    cases hl : h[a]? with
    | none => rw [hl] at he; cases he
    | some o =>
      rw [hl] at he
      cases hcf : copyFieldsAux (copyVal m) h o with
      | none => simp only [hcf] at he; cases he
      | some pr =>
        obtain ⟨o', h''⟩ := pr
        simp only [hcf, Option.some.injEq, Prod.mk.injEq] at he
        rw [← he.1]
        rfl

/-- C6. Copy isolation of the cache service on the heap model. For an
object argument (a live reference), set clones it via the JSON round
trip before storing: (1) set stores the clone under the namespaced key;
(2) write isolation: mutating any field of any pre-existing object
(everything the caller can reach, including the argument itself) leaves
the tree of the stored value untouched; (3) the stored tree equals the
tree of the argument at write time; (4) read isolation: get returns a
fresh clone, and mutating any object allocated by that clone (anything
reachable only through the returned reference) does not change the tree
a subsequent get returns. -/
theorem c6_copy_isolation (fuel : Nat) (heap0 : Heap) (cm0 : CacheHM)
    (ns k : String) (a : Nat) (w : HVal) (heap1 : Heap)
    (hwf : HeapWF heap0) (ha : a < heap0.length) (hk : k ≠ "")
    (hcv : copyVal fuel heap0 (.href a) = some (w, heap1)) :
    hset fuel heap0 cm0 ns k (.href a) =
      (heap1, insertKey cm0 (String.append ns k) w) ∧
    (∀ b f u, b < heap0.length → ∀ F,
      toTree F (setField heap1 b f u) w = toTree F heap1 w) ∧
    toTree fuel heap1 w = toTree fuel heap0 (.href a) ∧
    (∀ r heap2,
      hget fuel heap1 (insertKey cm0 (String.append ns k) w) ns k = (r, heap2) →
      ∀ b f u, heap1.length ≤ b → HVal.RefsIn (fun x => x < heap2.length) u →
      ∀ r2 heap3,
        hget fuel (setField heap2 b f u) (insertKey cm0 (String.append ns k) w)
          ns k = (r2, heap3) →
        toTree fuel heap3 r2 = toTree fuel heap2 r) := by
  have refsva : HVal.RefsIn (fun x => x < heap0.length) (HVal.href a) := ha
  obtain ⟨wf1, refsw⟩ := copyVal_wf fuel heap0 _ w heap1 hwf refsva hcv
  obtain ⟨refsGe, _, closedGe1, ext01⟩ := copyVal_fresh heap0.length fuel heap0
    _ w heap1 (le_refl _) (heapClosedGe_init _ _ (le_refl _)) hcv
  have hwref : isRef w = true := copyVal_href_isRef fuel heap0 a w heap1 hcv
  have hlook : lookupKey (insertKey cm0 (String.append ns k) w)
      (String.append ns k) = some w := lookupKey_insert_self cm0 _ w
  refine ⟨?_, ?_, ?_, ?_⟩
  · simp [hset, hk, hcv, isRef]
  · intro b f u hb F
    exact (toTree_congr (fun x hx => (setField_getElem_ne heap1 b f u x
      (by omega)).symm) closedGe1 F w refsGe).symm
  · exact copyVal_toTree fuel heap0 _ w heap1 hwf refsva hcv
  · intro r heap2 hget1 b f u hb hu r2 heap3 hget2
    cases hc2 : copyVal fuel heap1 w with
    | none =>
      have hx : hget fuel heap1 (insertKey cm0 (String.append ns k) w) ns k =
          (.hnull, heap1) := by
        simp [hget, hk, hlook, hwref, hc2]
      rw [hx] at hget1
      simp only [Prod.mk.injEq] at hget1
      obtain ⟨h1a, h1b⟩ := hget1
      subst h1a
      subst h1b
      rw [setField_oob heap1 b f u hb] at hget2
      rw [hx] at hget2
      simp only [Prod.mk.injEq] at hget2
      obtain ⟨h2a, h2b⟩ := hget2
      subst h2a
      subst h2b
      rfl
    | some pr =>
      obtain ⟨r0, h2'⟩ := pr
      have hx : hget fuel heap1 (insertKey cm0 (String.append ns k) w) ns k =
          (r0, h2') := by
        simp [hget, hk, hlook, hwref, hc2]
      rw [hx] at hget1
      simp only [Prod.mk.injEq] at hget1
      obtain ⟨h1a, h1b⟩ := hget1
      rw [h1a, h1b] at hc2
      have ext2 : heap1 <+: heap2 := copyVal_extends fuel heap1 w r heap2 hc2
      obtain ⟨wf2, refsr⟩ := copyVal_wf fuel heap1 w r heap2 wf1 refsw hc2
      have hwfm : HeapWF (setField heap2 b f u) := setField_wf heap2 b f u wf2 hu
      have hlenm : (setField heap2 b f u).length = heap2.length :=
        setField_length heap2 b f u
      have hagree : ∀ x, x < heap1.length →
          heap2[x]? = (setField heap2 b f u)[x]? :=
        fun x hx' => (setField_getElem_ne heap2 b f u x (by omega)).symm
      have hclosed2 : HeapClosedIn (fun x => x < heap1.length) heap2 :=
        closedIn_of_le wf1 ext2
      have treEq : toTree fuel heap2 w = toTree fuel (setField heap2 b f u) w :=
        toTree_congr hagree hclosed2 fuel w refsw
      have hext_tree : toTree fuel heap2 w = toTree fuel heap1 w :=
        toTree_extend wf1 ext2 fuel w refsw
      have refswm : HVal.RefsIn (fun x => x < (setField heap2 b f u).length) w :=
        refsIn_mono (fun x hx' => by rw [hlenm]; exact lt_of_lt_of_le hx' ext2.length_le)
          w refsw
      have hsucc : (copyVal fuel (setField heap2 b f u) w).isSome = true := by
        rw [copyVal_isSome fuel (setField heap2 b f u) w hwfm refswm, ← treEq,
          hext_tree, ← copyVal_isSome fuel heap1 w wf1 refsw, hc2]
        rfl
      obtain ⟨pr3, hc3⟩ := Option.isSome_iff_exists.mp hsucc
      obtain ⟨r3, h3'⟩ := pr3
      have hy : hget fuel (setField heap2 b f u)
          (insertKey cm0 (String.append ns k) w) ns k = (r3, h3') := by
        simp [hget, hk, hlook, hwref, hc3]
      rw [hy] at hget2
      simp only [Prod.mk.injEq] at hget2
      obtain ⟨h2a, h2b⟩ := hget2
      rw [h2a, h2b] at hc3
      have left : toTree fuel heap3 r2 = toTree fuel (setField heap2 b f u) w :=
        copyVal_toTree fuel (setField heap2 b f u) w r2 heap3 hwfm refswm hc3
      have right : toTree fuel heap2 r = toTree fuel heap1 w :=
        copyVal_toTree fuel heap1 w r heap2 wf1 refsw hc2
      rw [left, ← treEq, hext_tree, right]

/-- Witness for C6: the caller object at address 0 holds field a=1; set
clones it to address 1; overwriting the caller field afterwards leaves
the stored tree unchanged. -/
theorem c6_copy_isolation_witness :
    HeapWF [[("a", HVal.hnum 1)]] ∧
    toTree 3 (setField [[("a", HVal.hnum 1)], [("a", HVal.hnum 1)]] 0 "a"
        (HVal.hnum 99)) (.href 1) =
      toTree 3 [[("a", HVal.hnum 1)], [("a", HVal.hnum 1)]] (.href 1) :=
  ⟨by decide,
    (c6_copy_isolation 3 [[("a", HVal.hnum 1)]] [] "taskflow:development:" "k" 0
      (.href 1) [[("a", HVal.hnum 1)], [("a", HVal.hnum 1)]]
      (by decide) (by decide) (by decide) rfl).2.1 0 "a" (HVal.hnum 99)
      (by decide) 3⟩

end TaskFlow
